import Mathlib

/- Verification of the hex zone-control game engine (src/game.js).

   The board (`gameState.tiles`, a JavaScript `Map` keyed by the string
   `"q,r"`) is modelled as an insertion-ordered association list from axial
   coordinates to players; `Map.set` replaces the unique existing entry in
   place or appends a fresh one, `Map.get`/`Map.has` look the key up.  All
   capture resolution is applied synchronously: the final board produced by
   `animateFlips` does not depend on the reveal pacing, since every staged
   coordinate is set to the same new owner. -/

/-- The two players (`PLAYER.WHITE` / `PLAYER.BLACK`). -/
inductive Player where
  | white
  | black
deriving DecidableEq, Repr

/-- The opposing player (the `p === PLAYER.WHITE ? PLAYER.BLACK : PLAYER.WHITE` idiom). -/
def opponent : Player → Player
  | .white => .black
  | .black => .white

/-- An axial coordinate (q, r). -/
abbrev Coord := Int × Int

/-- `gameState.tiles`: insertion-ordered map from coordinate to owner. -/
abbrev Board := List (Coord × Player)

/-- `gameState.tiles.get(hexKey(q, r))`: the first (unique) entry for the key. -/
def occupant : Board → Coord → Option Player
  | [], _ => none
  | e :: rest, c => if e.1 = c then some e.2 else occupant rest c

/-- `gameState.tiles.has(hexKey(q, r))`. -/
def hasKey (b : Board) (c : Coord) : Bool :=
  b.any (fun e => e.1 == c)

/-- `gameState.tiles.set(hexKey(q, r), p)`: replace the existing entry in place,
    otherwise append at the end (JavaScript `Map` insertion-order semantics). -/
def setTile : Board → Coord → Player → Board
  | [], c, p => [(c, p)]
  | e :: rest, c, p => if e.1 = c then (c, p) :: rest else e :: setTile rest c p

/-- `GRID_SIZE`. -/
def gridSize : Nat := 8

/-- `TILES_PER_PLAYER`. -/
def tilesPerPlayer : Nat := 20

/-- `isValidHex(q, r)`: all three axial components within the grid radius. -/
def isValidHex (q r : Int) : Bool :=
  q.natAbs < gridSize && r.natAbs < gridSize && (-q - r).natAbs < gridSize

/-- The 6 axial directions (E, NE, NW, W, SW, SE), shared by every scan. -/
def hexDirections : List Coord :=
  [(1, 0), (1, -1), (0, -1), (-1, 0), (-1, 1), (0, 1)]

/-- `getSurroundingHexes(q, r)`: all 6 adjacent coordinates, valid or not. -/
def getSurroundingHexes (q r : Int) : List Coord :=
  hexDirections.map (fun d => (q + d.1, r + d.2))

/-- `getNeighbors(q, r)`: the 6 adjacent coordinates filtered to the board. -/
def getNeighbors (q r : Int) : List Coord :=
  (hexDirections.map (fun d => (q + d.1, r + d.2))).filter (fun h => isValidHex h.1 h.2)

/-- `getZOCHexes(q, r)`: the cell itself plus its 6 surrounding cells. -/
def getZOCHexes (q r : Int) : List Coord :=
  (q, r) :: getSurroundingHexes q r

/-- `getPlayerTiles(player)`: coordinates of the player's tiles in insertion order. -/
def getPlayerTiles (b : Board) (p : Player) : List Coord :=
  (b.filter (fun e => e.2 == p)).map (fun e => e.1)

/-- One `zoc.add(hexKey(...))` step of `calculateZOC`, guarded by `isValidHex`
    (a JavaScript `Set` keeps the first insertion). -/
def zocAdd (acc : List Coord) (h : Coord) : List Coord :=
  if isValidHex h.1 h.2 then (if h ∈ acc then acc else acc ++ [h]) else acc

/-- `calculateZOC(player)`: union of `getZOCHexes` over the player's tiles,
    restricted to valid cells. -/
def calculateZOC (b : Board) (p : Player) : List Coord :=
  (getPlayerTiles b p).foldl (fun acc t => (getZOCHexes t.1 t.2).foldl zocAdd acc) []

/-- `isTileSurrounded(q, r, enemyZOC)`: every surrounding hex is off-board or
    in the enemy zone of control. -/
def isTileSurrounded (q r : Int) (enemyZOC : List Coord) : Bool :=
  (getSurroundingHexes q r).all (fun h => !isValidHex h.1 h.2 || decide (h ∈ enemyZOC))

/-- A pending flip `{q, r, distance}` as produced by the capture rules. -/
structure Flip where
  q : Int
  r : Int
  distance : Nat
deriving DecidableEq, Repr

/-- Fuel for the direction scans: a straight line meets at most 15 cells of the
    radius-8 board, so 16 steps always run past its end (`specOppRun_lt`). -/
def scanBound : Nat := 16

/-- The body of the `while` loop of `getTilesInStraightLines`: collect
    consecutive tiles of `p`, stopping at any other cell or the board edge. -/
def lineWalk (b : Board) (p : Player) (dq dr : Int) : Nat → Int → Int → List Coord
  | 0, _, _ => []
  | fuel + 1, q, r =>
    if isValidHex q r then
      if occupant b (q, r) = some p then (q, r) :: lineWalk b p dq dr fuel (q + dq) (r + dr)
      else []
    else []

/-- `getTilesInStraightLines(startQ, startR, player)`: the 6 direction walks
    concatenated (the loop pushes into a single array). -/
def getTilesInStraightLines (b : Board) (startQ startR : Int) (p : Player) : List Coord :=
  hexDirections.foldr
    (fun d acc => lineWalk b p d.1 d.2 scanBound (startQ + d.1) (startR + d.2) ++ acc) []

/-- One direction of `getOthelloFlips`: collect opponent tiles outward; commit
    the collected run (`acc`) on reaching an own tile, discard it on an empty
    cell or the board edge. -/
def othelloLineGo (b : Board) (cur opp : Player) (dq dr : Int) :
    Nat → Int → Int → Nat → List Flip → List Flip
  | 0, _, _, _, _ => []
  | fuel + 1, q, r, dist, acc =>
    if isValidHex q r then
      match occupant b (q, r) with
      | some o =>
        if o = opp then
          othelloLineGo b cur opp dq dr fuel (q + dq) (r + dr) (dist + 1) (acc ++ [⟨q, r, dist⟩])
        else if o = cur then acc
        else []
      | none => []
    else []

/-- `getOthelloFlips(placedQ, placedR, currentPlayer)`: the 6 direction scans
    concatenated, each flip carrying its step distance from the placed cell. -/
def getOthelloFlips (b : Board) (placedQ placedR : Int) (cur : Player) : List Flip :=
  hexDirections.foldr
    (fun d acc =>
      othelloLineGo b cur (opponent cur) d.1 d.2 scanBound
        (placedQ + d.1) (placedR + d.2) 1 [] ++ acc) []

/-- The `linesTiles.forEach((lt, idx) => flips.push({..., distance: idx + 2}))`
    step of `getSurroundedFlips`. -/
def withRanks : List Coord → Nat → List Flip
  | [], _ => []
  | c :: rest, n => ⟨c.1, c.2, n⟩ :: withRanks rest (n + 1)

/-- `getSurroundedFlips(attackingPlayer)`: every surrounded defending tile at
    distance 1, followed by its straight-line run tiles at distances 2, 3, …. -/
def getSurroundedFlips (b : Board) (attacking : Player) : List Flip :=
  (getPlayerTiles b (opponent attacking)).foldr
    (fun t acc =>
      (if isTileSurrounded t.1 t.2 (calculateZOC b attacking) then
        ⟨t.1, t.2, 1⟩ :: withRanks (getTilesInStraightLines b t.1 t.2 (opponent attacking)) 2
      else []) ++ acc) []

/-- Lookup in a flip list by coordinate (the `allFlipsMap` key discipline of
    `placeTile`, which keys flips by `hexKey(q, r)`). -/
def findFlip : List Flip → Coord → Option Flip
  | [], _ => none
  | f :: rest, c => if (f.q, f.r) = c then some f else findFlip rest c

/-- One `allFlipsMap.set(flipKey, flip)` guarded by `allFlipsMap.has(flipKey)`
    (the source only inserts a flip when its coordinate is not yet present;
    the `flip.distance || 1` in the source is the identity, since every
    produced flip already carries a distance of at least 1). -/
def insertFlip (m : List Flip) (f : Flip) : List Flip :=
  if (findFlip m (f.q, f.r)).isSome then m else m ++ [f]

/-- The merge/dedup step of `placeTile`: othello flips inserted first, then
    surround flips only for coordinates not already present. -/
def mergeFlips (othello surround : List Flip) : List Flip :=
  (othello ++ surround).foldl insertFlip []

/-- Applying every staged flip (the end state of `animateFlips`: each staged
    coordinate becomes `newPlayer`; the batch order cannot affect the final
    board because all writes carry the same owner). -/
def applyFlips : Board → List Flip → Player → Board
  | b, [], _ => b
  | b, f :: rest, p => applyFlips (setTile b (f.q, f.r) p) rest p

/-- The engine-relevant fields of `gameState`. -/
structure GameState where
  currentPlayer : Player
  tiles : Board
  whiteTilesRemaining : Nat
  blackTilesRemaining : Nat
  gameOver : Bool
  isAnimating : Bool
deriving DecidableEq, Repr

/-- The initial `gameState`. -/
def initialState : GameState :=
  { currentPlayer := .white
    tiles := []
    whiteTilesRemaining := tilesPerPlayer
    blackTilesRemaining := tilesPerPlayer
    gameOver := false
    isAnimating := false }

/-- `finishTurn()`: set `gameOver` when both supplies are exhausted, otherwise
    switch the current player. -/
def finishTurn (s : GameState) : GameState :=
  if s.whiteTilesRemaining = 0 ∧ s.blackTilesRemaining = 0 then { s with gameOver := true }
  else { s with currentPlayer := opponent s.currentPlayer }

/-- The accepted-placement branch of `placeTile(q, r)`: record the tile,
    decrement the placing player's supply, compute and merge both capture
    sets on the updated board, apply every staged flip, then `finishTurn`. -/
def placeTileResolved (s : GameState) (q r : Int) : GameState :=
  finishTurn
    { s with
      tiles :=
        applyFlips (setTile s.tiles (q, r) s.currentPlayer)
          (mergeFlips
            (getOthelloFlips (setTile s.tiles (q, r) s.currentPlayer) q r s.currentPlayer)
            (getSurroundedFlips (setTile s.tiles (q, r) s.currentPlayer) s.currentPlayer))
          s.currentPlayer
      whiteTilesRemaining :=
        if s.currentPlayer = .white then s.whiteTilesRemaining - 1 else s.whiteTilesRemaining
      blackTilesRemaining :=
        if s.currentPlayer = .black then s.blackTilesRemaining - 1 else s.blackTilesRemaining }

/-- `placeTile(q, r)`, with the whole capture resolution applied synchronously. -/
def placeTile (s : GameState) (q r : Int) : GameState × Bool :=
  if s.gameOver || s.isAnimating then (s, false)
  else if !isValidHex q r || hasKey s.tiles (q, r) then (s, false)
  else if s.currentPlayer = .white ∧ s.whiteTilesRemaining = 0 then (s, false)
  else if s.currentPlayer = .black ∧ s.blackTilesRemaining = 0 then (s, false)
  else (placeTileResolved s q r, true)

/-- `countTiles()`: (white, black) tile counts on the board. -/
def countTiles (b : Board) : Nat × Nat :=
  ((b.filter (fun e => e.2 == Player.white)).length,
   (b.filter (fun e => e.2 == Player.black)).length)

/-- The three final outcomes displayed by `showGameOver()`. -/
inductive Outcome where
  | whiteWins
  | blackWins
  | tie
deriving DecidableEq, Repr

/-- The outcome `showGameOver()` computes from `countTiles()`. -/
def gameOutcome (s : GameState) : Outcome :=
  if (countTiles s.tiles).1 > (countTiles s.tiles).2 then .whiteWins
  else if (countTiles s.tiles).2 > (countTiles s.tiles).1 then .blackWins
  else .tie

/-- `Math.round`: round half toward positive infinity. -/
def jsRound (x : ℚ) : ℤ := ⌊x + 1 / 2⌋

/-- `hexRound(q, r)` over exact (rational) arithmetic: round each axial
    component, then correct the component with the largest rounding error so
    the triple sums to zero; the returned pair is `(rq, rr)`. -/
def hexRound (q r : ℚ) : ℤ × ℤ :=
  let s : ℚ := -q - r
  let rq := jsRound q
  let rr := jsRound r
  let rs := jsRound s
  let qDiff := |(rq : ℚ) - q|
  let rDiff := |(rr : ℚ) - r|
  let sDiff := |(rs : ℚ) - s|
  if qDiff > rDiff ∧ qDiff > sDiff then (-rr - rs, rr)
  else if rDiff > sDiff then (rq, -rq - rs)
  else (rq, rr)

/-- Spec-side characterization for the line-capture rule: the length of the
    consecutive run of valid, opponent-owned cells starting at (q, r) and
    continuing in direction (dq, dr), bounded by the available fuel. -/
def specOppRunAux (b : Board) (opp : Player) (dq dr : Int) : Nat → Int → Int → Nat
  | 0, _, _ => 0
  | fuel + 1, q, r =>
    if isValidHex q r ∧ occupant b (q, r) = some opp then
      specOppRunAux b opp dq dr fuel (q + dq) (r + dr) + 1
    else 0

/-- Spec-side run length with enough fuel to cover any board line. -/
def specOppRun (b : Board) (opp : Player) (dq dr q r : Int) : Nat :=
  specOppRunAux b opp dq dr scanBound q r


/-- Keys of `b` are pairwise distinct (a JavaScript `Map` invariant). -/
def nodupKeys (b : Board) : Prop := (b.map (fun e => e.1)).Nodup

/-- The coordinate key of a flip, as used by `allFlipsMap`. -/
def flipKey (f : Flip) : Coord := (f.q, f.r)

theorem opponent_ne (p : Player) : opponent p ≠ p := by
  cases p <;> simp [opponent]

theorem mem_setTile {b : Board} {k : Coord} {v : Player} {x : Coord × Player}
    (h : x ∈ setTile b k v) : x = (k, v) ∨ x ∈ b := by
  induction b with
  | nil => simpa [setTile] using h
  | cons e rest ih =>
    by_cases he : e.1 = k
    · simp only [setTile, if_pos he] at h
      rcases List.mem_cons.mp h with rfl | h
      · exact Or.inl rfl
      · exact Or.inr (List.mem_cons.mpr (Or.inr h))
    · simp only [setTile, if_neg he] at h
      rcases List.mem_cons.mp h with rfl | h
      · exact Or.inr (List.mem_cons.mpr (Or.inl rfl))
      · rcases ih h with h1 | h1
        · exact Or.inl h1
        · exact Or.inr (List.mem_cons.mpr (Or.inr h1))

theorem occupant_setTile (b : Board) (k : Coord) (v : Player) (c : Coord) :
    occupant (setTile b k v) c = if c = k then some v else occupant b c := by
  induction b with
  | nil =>
    by_cases hc : c = k
    · simp [setTile, occupant, hc]
    · have h1 : ¬(k = c) := fun h => hc h.symm
      simp [setTile, occupant, hc, h1]
  | cons e rest ih =>
    by_cases he : e.1 = k
    · simp only [setTile, if_pos he, occupant]
      by_cases hc : c = k
      · subst hc
        simp
      · have h1 : ¬(k = c) := fun h => hc h.symm
        have h2 : ¬(e.1 = c) := fun h => hc (he.symm.trans h).symm
        simp [h1, h2, hc]
    · simp only [setTile, if_neg he, occupant, ih]
      by_cases h2 : c = k
      · subst h2
        simp [he]
      · by_cases h1 : e.1 = c <;> simp [h1, h2]

theorem hasKey_eq_isSome (b : Board) (c : Coord) :
    hasKey b c = (occupant b c).isSome := by
  induction b with
  | nil => rfl
  | cons e rest ih =>
    by_cases h : e.1 = c <;> simp [hasKey, occupant, List.any_cons, h, ← ih, hasKey]

theorem hasKey_setTile (b : Board) (k : Coord) (v : Player) (c : Coord) :
    hasKey (setTile b k v) c = (decide (c = k) || hasKey b c) := by
  rw [hasKey_eq_isSome, hasKey_eq_isSome, occupant_setTile]
  by_cases h : c = k <;> simp [h]

theorem length_setTile (b : Board) (k : Coord) (v : Player) :
    (setTile b k v).length = if hasKey b k then b.length else b.length + 1 := by
  induction b with
  | nil => simp [setTile, hasKey]
  | cons e rest ih =>
    by_cases h : e.1 = k
    · simp [setTile, h, hasKey, List.any_cons]
    · have hb : (e.1 == k) = false := by simp [h]
      simp only [setTile, if_neg h, List.length_cons, ih, hasKey, List.any_cons, hb,
        Bool.false_or]
      by_cases hk : rest.any (fun e => e.1 == k) <;> simp [hk]

theorem hasKey_of_mem {b : Board} {c : Coord} {p : Player} (h : (c, p) ∈ b) :
    hasKey b c = true := by
  simp only [hasKey, List.any_eq_true]
  exact ⟨(c, p), h, by simp⟩

theorem mem_getPlayerTiles (b : Board) (p : Player) (t : Coord) :
    t ∈ getPlayerTiles b p ↔ (t, p) ∈ b := by
  simp only [getPlayerTiles, List.mem_map, List.mem_filter, beq_iff_eq]
  constructor
  · rintro ⟨⟨c, o⟩, ⟨hm, ho⟩, rfl⟩
    simpa using ho ▸ hm
  · intro hm
    exact ⟨(t, p), ⟨hm, rfl⟩, rfl⟩

theorem occupant_of_mem {b : Board} (hnd : nodupKeys b) {c : Coord} {p : Player}
    (hm : (c, p) ∈ b) : occupant b c = some p := by
  induction b with
  | nil => simp at hm
  | cons e rest ih =>
    simp only [nodupKeys, List.map_cons, List.nodup_cons] at hnd
    rcases List.mem_cons.mp hm with h | h
    · simp [occupant, ← h]
    · have hne : e.1 ≠ c := by
        intro hec
        exact hnd.1 (hec ▸ (List.mem_map.mpr ⟨(c, p), h, rfl⟩))
      simp only [occupant, if_neg hne]
      exact ih hnd.2 h

theorem nodupKeys_setTile {b : Board} (hnd : nodupKeys b) (k : Coord) (v : Player) :
    nodupKeys (setTile b k v) := by
  induction b with
  | nil => simp [setTile, nodupKeys]
  | cons e rest ih =>
    simp only [nodupKeys, List.map_cons, List.nodup_cons] at hnd
    by_cases he : e.1 = k
    · simp only [setTile, if_pos he, nodupKeys, List.map_cons, List.nodup_cons]
      exact ⟨he ▸ hnd.1, hnd.2⟩
    · simp only [setTile, if_neg he, nodupKeys, List.map_cons, List.nodup_cons]
      refine ⟨?_, ih hnd.2⟩
      intro hmem
      rcases List.mem_map.mp hmem with ⟨x, hx, hx1⟩
      rcases mem_setTile hx with rfl | hx2
      · exact he hx1.symm
      · exact hnd.1 (List.mem_map.mpr ⟨x, hx2, hx1⟩)

theorem mem_foldr_append {α β : Type} (f : α → List β) (l : List α) (x : β) :
    x ∈ l.foldr (fun d acc => f d ++ acc) [] ↔ ∃ d ∈ l, x ∈ f d := by
  induction l with
  | nil => simp
  | cons d rest ih => simp [List.foldr_cons, List.mem_append, ih]

theorem occupant_applyFlips (fs : List Flip) (b : Board) (p : Player) (c : Coord) :
    occupant (applyFlips b fs p) c =
      if ∃ f ∈ fs, (f.q, f.r) = c then some p else occupant b c := by
  induction fs generalizing b with
  | nil => simp [applyFlips]
  | cons f rest ih =>
    simp only [applyFlips, ih, occupant_setTile]
    by_cases h1 : ∃ g ∈ rest, (g.q, g.r) = c
    · have h2 : ∃ g ∈ f :: rest, (g.q, g.r) = c := by
        rcases h1 with ⟨g, hg, hgc⟩
        exact ⟨g, List.mem_cons.mpr (Or.inr hg), hgc⟩
      simp [h1, h2]
    · by_cases h2 : c = (f.q, f.r)
      · have h3 : ∃ g ∈ f :: rest, (g.q, g.r) = c := ⟨f, List.mem_cons.mpr (Or.inl rfl), h2.symm⟩
        simp [h1, h2, h3]
      · have h3 : ¬∃ g ∈ f :: rest, (g.q, g.r) = c := by
          rintro ⟨g, hg, hgc⟩
          rcases List.mem_cons.mp hg with rfl | hg
          · exact h2 hgc.symm
          · exact h1 ⟨g, hg, hgc⟩
        have h4 : ¬((f.q, f.r) = c) := fun hh => h2 hh.symm
        simp [h1, h2, h3, h4]

theorem hasKey_applyFlips (fs : List Flip) (b : Board) (p : Player) (c : Coord) :
    hasKey (applyFlips b fs p) c = ((decide (∃ f ∈ fs, (f.q, f.r) = c)) || hasKey b c) := by
  rw [hasKey_eq_isSome, hasKey_eq_isSome, occupant_applyFlips]
  by_cases h : ∃ f ∈ fs, (f.q, f.r) = c <;> simp [h]

theorem length_applyFlips (fs : List Flip) (b : Board) (p : Player)
    (h : ∀ f ∈ fs, hasKey b (f.q, f.r) = true) :
    (applyFlips b fs p).length = b.length := by
  induction fs generalizing b with
  | nil => rfl
  | cons f rest ih =>
    simp only [applyFlips]
    have hf : hasKey b (f.q, f.r) = true := h f (List.mem_cons.mpr (Or.inl rfl))
    have hrest : ∀ g ∈ rest, hasKey (setTile b (f.q, f.r) p) (g.q, g.r) = true := by
      intro g hg
      rw [hasKey_setTile]
      simp [h g (List.mem_cons.mpr (Or.inr hg))]
    rw [ih _ hrest, length_setTile, if_pos hf]

theorem nodupKeys_applyFlips (fs : List Flip) (b : Board) (p : Player)
    (hnd : nodupKeys b) : nodupKeys (applyFlips b fs p) := by
  induction fs generalizing b with
  | nil => exact hnd
  | cons f rest ih => exact ih _ (nodupKeys_setTile hnd _ _)

theorem mem_lineWalk {b : Board} {p : Player} {dq dr : Int} :
    ∀ {fuel : Nat} {q r : Int} {c : Coord}, c ∈ lineWalk b p dq dr fuel q r →
      occupant b c = some p := by
  intro fuel
  induction fuel with
  | zero => intro q r c h; simp [lineWalk] at h
  | succ n ih =>
    intro q r c h
    simp only [lineWalk] at h
    by_cases hv : isValidHex q r
    · rw [if_pos hv] at h
      by_cases ho : occupant b (q, r) = some p
      · rw [if_pos ho] at h
        rcases List.mem_cons.mp h with rfl | h
        · exact ho
        · exact ih h
      · rw [if_neg ho] at h
        simp at h
    · rw [if_neg hv] at h
      simp at h

theorem mem_getTilesInStraightLines {b : Board} {sq sr : Int} {p : Player} {c : Coord}
    (h : c ∈ getTilesInStraightLines b sq sr p) : occupant b c = some p := by
  rcases (mem_foldr_append _ _ _).mp h with ⟨d, _, hd⟩
  exact mem_lineWalk hd

theorem mem_withRanks : ∀ {l : List Coord} {n : Nat} {f : Flip},
    f ∈ withRanks l n → (f.q, f.r) ∈ l := by
  intro l
  induction l with
  | nil => intro n f h; simp [withRanks] at h
  | cons c rest ih =>
    intro n f h
    simp only [withRanks] at h
    rcases List.mem_cons.mp h with rfl | h
    · simp
    · exact List.mem_cons.mpr (Or.inr (ih h))

theorem mem_othelloLineGo {b : Board} {cur opp : Player} {dq dr : Int} :
    ∀ {fuel : Nat} {q r : Int} {dist : Nat} {acc : List Flip} {f : Flip},
      f ∈ othelloLineGo b cur opp dq dr fuel q r dist acc →
      f ∈ acc ∨ (occupant b (f.q, f.r) = some opp ∧
        ∃ k : Nat, f.q = q + (k : Int) * dq ∧ f.r = r + (k : Int) * dr ∧
          f.distance = dist + k) := by
  intro fuel
  induction fuel with
  | zero => intro q r dist acc f h; simp [othelloLineGo] at h
  | succ n ih =>
    intro q r dist acc f h
    simp only [othelloLineGo] at h
    by_cases hv : isValidHex q r
    · rw [if_pos hv] at h
      rcases hocc : occupant b (q, r) with _ | o <;> rw [hocc] at h <;> simp only [] at h
      · simp at h
      · by_cases h1 : o = opp
        · rw [if_pos h1] at h
          rcases ih h with hacc | ⟨hoc, k, hq, hr, hd⟩
          · rcases List.mem_append.mp hacc with hacc | hacc
            · exact Or.inl hacc
            · refine Or.inr ⟨?_, 0, ?_, ?_, ?_⟩ <;> simp only [List.mem_singleton] at hacc
              · subst hacc; rw [hocc, h1]
              · subst hacc; simp
              · subst hacc; simp
              · subst hacc; simp
          · refine Or.inr ⟨hoc, k + 1, ?_, ?_, ?_⟩
            · rw [hq]; push_cast; ring
            · rw [hr]; push_cast; ring
            · omega
        · rw [if_neg h1] at h
          by_cases h2 : o = cur
          · rw [if_pos h2] at h
            exact Or.inl h
          · rw [if_neg h2] at h
            simp at h
    · rw [if_neg hv] at h
      simp at h

theorem mem_getOthelloFlips {b : Board} {pq pr : Int} {cur : Player} {f : Flip}
    (h : f ∈ getOthelloFlips b pq pr cur) :
    occupant b (f.q, f.r) = some (opponent cur) ∧
      ∃ d ∈ hexDirections, ∃ k : Nat,
        f.q = pq + ((k : Int) + 1) * d.1 ∧ f.r = pr + ((k : Int) + 1) * d.2 ∧
          f.distance = k + 1 := by
  rcases (mem_foldr_append _ _ _).mp h with ⟨d, hd, hgo⟩
  rcases mem_othelloLineGo hgo with hacc | ⟨hoc, k, hq, hr, hdist⟩
  · simp at hacc
  · refine ⟨hoc, d, hd, k, ?_, ?_, ?_⟩
    · rw [hq]; ring
    · rw [hr]; ring
    · omega

theorem mem_getSurroundedFlips {b : Board} {att : Player} {f : Flip}
    (h : f ∈ getSurroundedFlips b att) :
    ((f.q, f.r), opponent att) ∈ b ∨ occupant b (f.q, f.r) = some (opponent att) := by
  rcases (mem_foldr_append _ _ _).mp h with ⟨t, ht, hf⟩
  by_cases hs : isTileSurrounded t.1 t.2 (calculateZOC b att)
  · rw [if_pos hs] at hf
    rcases List.mem_cons.mp hf with rfl | hf
    · left
      have : (t.1, t.2) = t := rfl
      rw [this]
      exact (mem_getPlayerTiles _ _ _).mp ht
    · right
      exact mem_getTilesInStraightLines (mem_withRanks hf)
  · rw [if_neg hs] at hf
    simp at hf

theorem findFlip_append (l m : List Flip) (c : Coord) :
    findFlip (l ++ m) c =
      match findFlip l c with
      | some g => some g
      | none => findFlip m c := by
  induction l with
  | nil => simp [findFlip]
  | cons f l ih =>
    by_cases h : (f.q, f.r) = c <;> simp [findFlip, h, ih]

theorem findFlip_eq_none {m : List Flip} {c : Coord} :
    findFlip m c = none ↔ ∀ g ∈ m, (g.q, g.r) ≠ c := by
  induction m with
  | nil => simp [findFlip]
  | cons f m ih => by_cases h : (f.q, f.r) = c <;> simp [findFlip, h, ih]

theorem findFlip_isSome_of_mem {m : List Flip} {f : Flip} (h : f ∈ m) :
    (findFlip m (f.q, f.r)).isSome := by
  rcases hf : findFlip m (f.q, f.r) with _ | g
  · exact absurd rfl (findFlip_eq_none.mp hf f h)
  · simp

theorem findFlip_insertFlip (m : List Flip) (f : Flip) (c : Coord) :
    findFlip (insertFlip m f) c =
      match findFlip m c with
      | some g => some g
      | none => if (f.q, f.r) = c then some f else none := by
  unfold insertFlip
  by_cases hs : (findFlip m (f.q, f.r)).isSome
  · rw [if_pos hs]
    rcases hc : findFlip m c with _ | g
    · by_cases he : (f.q, f.r) = c
      · subst he
        rw [hc] at hs
        simp at hs
      · simp [hc, he]
    · simp [hc]
  · rw [if_neg hs, findFlip_append]
    cases hc : findFlip m c <;> simp [hc, findFlip]

theorem findFlip_foldl_insertFlip (l : List Flip) : ∀ (m : List Flip) (c : Coord),
    findFlip (l.foldl insertFlip m) c =
      match findFlip m c with
      | some g => some g
      | none => findFlip l c := by
  induction l with
  | nil =>
    intro m c
    cases hc : findFlip m c <;> simp [findFlip, hc]
  | cons f l ih =>
    intro m c
    rw [List.foldl_cons, ih, findFlip_insertFlip]
    cases hc : findFlip m c
    · by_cases he : (f.q, f.r) = c <;> simp [hc, he, findFlip]
    · simp [hc]

theorem mergeFlips_find (oth sur : List Flip) (c : Coord) :
    findFlip (mergeFlips oth sur) c = findFlip (oth ++ sur) c := by
  unfold mergeFlips
  rw [findFlip_foldl_insertFlip]
  simp [findFlip]

theorem mem_foldl_insertFlip (l : List Flip) : ∀ (m : List Flip) (f : Flip),
    f ∈ l.foldl insertFlip m → f ∈ m ∨ f ∈ l := by
  induction l with
  | nil => intro m f h; exact Or.inl h
  | cons g l ih =>
    intro m f h
    rw [List.foldl_cons] at h
    rcases ih _ _ h with h1 | h1
    · unfold insertFlip at h1
      by_cases hs : (findFlip m (g.q, g.r)).isSome
      · rw [if_pos hs] at h1
        exact Or.inl h1
      · rw [if_neg hs] at h1
        rcases List.mem_append.mp h1 with h2 | h2
        · exact Or.inl h2
        · simp only [List.mem_singleton] at h2
          subst h2
          exact Or.inr (List.mem_cons.mpr (Or.inl rfl))
    · exact Or.inr (List.mem_cons.mpr (Or.inr h1))

theorem mem_mergeFlips {oth sur : List Flip} {f : Flip} (h : f ∈ mergeFlips oth sur) :
    f ∈ oth ∨ f ∈ sur := by
  rcases mem_foldl_insertFlip _ _ _ h with h1 | h1
  · simp at h1
  · exact List.mem_append.mp h1

theorem nodupFlipKeys_foldl (l : List Flip) : ∀ m : List Flip, (m.map flipKey).Nodup →
    ((l.foldl insertFlip m).map flipKey).Nodup := by
  induction l with
  | nil => intro m h; exact h
  | cons f l ih =>
    intro m h
    rw [List.foldl_cons]
    apply ih
    unfold insertFlip
    by_cases hs : (findFlip m (f.q, f.r)).isSome
    · rw [if_pos hs]
      exact h
    · rw [if_neg hs, List.map_append]
      rw [List.nodup_append]
      refine ⟨h, by simp, ?_⟩
      intro x hx hxf
      simp only [List.map_cons, List.map_nil, List.mem_singleton] at hxf
      subst hxf
      have hnone : findFlip m (f.q, f.r) = none := by
        cases hfc : findFlip m (f.q, f.r)
        · rfl
        · rw [hfc] at hs
          simp at hs
      rcases List.mem_map.mp hx with ⟨g, hg, hgk⟩
      exact (findFlip_eq_none.mp hnone g hg) hgk

theorem nodup_mergeFlips_keys (oth sur : List Flip) :
    ((mergeFlips oth sur).map flipKey).Nodup := by
  unfold mergeFlips
  exact nodupFlipKeys_foldl _ _ (by simp)

theorem placeTile_fail_iff (s : GameState) (q r : Int) :
    (placeTile s q r).2 = false ↔
      s.gameOver = true ∨ s.isAnimating = true ∨ isValidHex q r = false ∨
      hasKey s.tiles (q, r) = true ∨
      (s.currentPlayer = .white ∧ s.whiteTilesRemaining = 0) ∨
      (s.currentPlayer = .black ∧ s.blackTilesRemaining = 0) := by
  unfold placeTile
  split_ifs with h1 h2 h3 h4 <;>
    simp_all [Bool.or_eq_true, Bool.not_eq_true']
  · tauto
  · tauto

theorem placeTile_fst_of_fail {s : GameState} {q r : Int}
    (h : (placeTile s q r).2 = false) : (placeTile s q r).1 = s := by
  unfold placeTile at *
  split_ifs at * <;> simp_all

theorem placeTile_success {s : GameState} {q r : Int}
    (h : (placeTile s q r).2 = true) :
    placeTile s q r = (placeTileResolved s q r, true) ∧
      s.gameOver = false ∧ s.isAnimating = false ∧ isValidHex q r = true ∧
      hasKey s.tiles (q, r) = false ∧
      ¬(s.currentPlayer = .white ∧ s.whiteTilesRemaining = 0) ∧
      ¬(s.currentPlayer = .black ∧ s.blackTilesRemaining = 0) := by
  unfold placeTile at *
  split_ifs at * with h1 h2 h3 h4
  simp_all [Bool.or_eq_true, Bool.not_eq_true']

theorem specOppRunAux_le (b : Board) (opp : Player) (dq dr : Int) :
    ∀ (fuel : Nat) (q r : Int), specOppRunAux b opp dq dr fuel q r ≤ fuel := by
  intro fuel
  induction fuel with
  | zero => intro q r; simp [specOppRunAux]
  | succ n ih =>
    intro q r
    simp only [specOppRunAux]
    split_ifs with h
    · exact Nat.succ_le_succ (ih _ _)
    · exact Nat.zero_le _

theorem specOppRunAux_run (b : Board) (opp : Player) (dq dr : Int) :
    ∀ (fuel : Nat) (q r : Int) (k : Nat), k < specOppRunAux b opp dq dr fuel q r →
      isValidHex (q + (k : Int) * dq) (r + (k : Int) * dr) = true ∧
        occupant b (q + (k : Int) * dq, r + (k : Int) * dr) = some opp := by
  intro fuel
  induction fuel with
  | zero => intro q r k h; simp [specOppRunAux] at h
  | succ n ih =>
    intro q r k h
    simp only [specOppRunAux] at h
    split_ifs at h with hc
    · cases k with
      | zero => simpa using hc
      | succ k =>
        have h2 := ih (q + dq) (r + dr) k (by omega)
        have e1 : q + ((k + 1 : Nat) : Int) * dq = q + dq + (k : Int) * dq := by
          push_cast
          ring
        have e2 : r + ((k + 1 : Nat) : Int) * dr = r + dr + (k : Int) * dr := by
          push_cast
          ring
        rw [e1, e2]
        exact h2
    · omega

theorem specOppRunAux_stop (b : Board) (opp : Player) (dq dr : Int) :
    ∀ (fuel : Nat) (q r : Int), specOppRunAux b opp dq dr fuel q r < fuel →
      ¬(isValidHex (q + (specOppRunAux b opp dq dr fuel q r : Int) * dq)
          (r + (specOppRunAux b opp dq dr fuel q r : Int) * dr) = true ∧
        occupant b (q + (specOppRunAux b opp dq dr fuel q r : Int) * dq,
                    r + (specOppRunAux b opp dq dr fuel q r : Int) * dr) = some opp) := by
  intro fuel
  induction fuel with
  | zero => intro q r h; omega
  | succ n ih =>
    intro q r h
    by_cases hc : isValidHex q r = true ∧ occupant b (q, r) = some opp
    · rw [specOppRunAux, if_pos hc] at h ⊢
      have h2 := ih (q + dq) (r + dr) (by omega)
      intro hcon
      apply h2
      have e1 : q + ((specOppRunAux b opp dq dr n (q + dq) (r + dr) + 1 : Nat) : Int) * dq
          = q + dq + ((specOppRunAux b opp dq dr n (q + dq) (r + dr) : Nat) : Int) * dq := by
        push_cast
        ring
      have e2 : r + ((specOppRunAux b opp dq dr n (q + dq) (r + dr) + 1 : Nat) : Int) * dr
          = r + dr + ((specOppRunAux b opp dq dr n (q + dq) (r + dr) : Nat) : Int) * dr := by
        push_cast
        ring
      rw [e1, e2] at hcon
      exact hcon
    · rw [specOppRunAux, if_neg hc] at h ⊢
      simpa using hc

theorem specOppRun_lt {b : Board} {opp : Player} {d : Coord} (hd : d ∈ hexDirections)
    (q r : Int) : specOppRun b opp d.1 d.2 q r < scanBound := by
  unfold specOppRun scanBound
  by_contra hcon
  push_neg at hcon
  have h16 : specOppRunAux b opp d.1 d.2 16 q r = 16 :=
    le_antisymm (specOppRunAux_le b opp d.1 d.2 16 q r) hcon
  have h0 := (specOppRunAux_run b opp d.1 d.2 16 q r 0 (by omega)).1
  have h15 := (specOppRunAux_run b opp d.1 d.2 16 q r 15 (by omega)).1
  fin_cases hd <;>
    simp only [isValidHex, gridSize, Bool.and_eq_true, decide_eq_true_eq] at h0 h15 <;>
    push_cast at h0 h15 <;>
    omega

theorem othelloLineGo_spec (b : Board) (cur opp : Player) (dq dr : Int) :
    ∀ (fuel : Nat) (q r : Int) (dist : Nat) (acc : List Flip),
      othelloLineGo b cur opp dq dr fuel q r dist acc =
        if specOppRunAux b opp dq dr fuel q r = fuel then []
        else if isValidHex (q + (specOppRunAux b opp dq dr fuel q r : Int) * dq)
                 (r + (specOppRunAux b opp dq dr fuel q r : Int) * dr) = true ∧
               occupant b (q + (specOppRunAux b opp dq dr fuel q r : Int) * dq,
                           r + (specOppRunAux b opp dq dr fuel q r : Int) * dr) = some cur then
          acc ++ (List.range (specOppRunAux b opp dq dr fuel q r)).map
            (fun k => ⟨q + (k : Int) * dq, r + (k : Int) * dr, dist + k⟩)
        else []
  := by
  intro fuel
  induction fuel with
  | zero =>
    intro q r dist acc
    simp [othelloLineGo, specOppRunAux]
  | succ n ih =>
    intro q r dist acc
    by_cases hc : isValidHex q r = true ∧ occupant b (q, r) = some opp
    · rw [specOppRunAux, if_pos hc]
      have hlhs : othelloLineGo b cur opp dq dr (n + 1) q r dist acc =
          othelloLineGo b cur opp dq dr n (q + dq) (r + dr) (dist + 1)
            (acc ++ [⟨q, r, dist⟩]) := by
        rw [othelloLineGo, if_pos hc.1, hc.2]
        simp
      rw [hlhs, ih]
      by_cases hmn : specOppRunAux b opp dq dr n (q + dq) (r + dr) = n
      · have hmn1 : specOppRunAux b opp dq dr n (q + dq) (r + dr) + 1 = n + 1 := by omega
        rw [if_pos hmn, if_pos hmn1]
      · have hmn1 : ¬(specOppRunAux b opp dq dr n (q + dq) (r + dr) + 1 = n + 1) := by omega
        rw [if_neg hmn, if_neg hmn1]
        have e1 : q + ((specOppRunAux b opp dq dr n (q + dq) (r + dr) + 1 : Nat) : Int) * dq
            = q + dq + ((specOppRunAux b opp dq dr n (q + dq) (r + dr) : Nat) : Int) * dq := by
          push_cast
          ring
        have e2 : r + ((specOppRunAux b opp dq dr n (q + dq) (r + dr) + 1 : Nat) : Int) * dr
            = r + dr + ((specOppRunAux b opp dq dr n (q + dq) (r + dr) : Nat) : Int) * dr := by
          push_cast
          ring
        rw [e1, e2]
        by_cases hterm : isValidHex
              (q + dq + ((specOppRunAux b opp dq dr n (q + dq) (r + dr) : Nat) : Int) * dq)
              (r + dr + ((specOppRunAux b opp dq dr n (q + dq) (r + dr) : Nat) : Int) * dr)
              = true ∧
            occupant b
              (q + dq + ((specOppRunAux b opp dq dr n (q + dq) (r + dr) : Nat) : Int) * dq,
               r + dr + ((specOppRunAux b opp dq dr n (q + dq) (r + dr) : Nat) : Int) * dr)
              = some cur
        · rw [if_pos hterm, if_pos hterm]
          rw [List.range_succ_eq_map, List.map_cons, List.map_map]
          have hf0 : (⟨q + ((0 : Nat) : Int) * dq, r + ((0 : Nat) : Int) * dr, dist + 0⟩ : Flip)
              = ⟨q, r, dist⟩ := by
            simp
          rw [List.append_assoc]
          congr 1
          rw [hf0, List.singleton_append]
          congr 1
          apply List.map_congr_left
          intro k _
          simp only [Function.comp_apply]
          have g1 : q + dq + (k : Int) * dq = q + ((k.succ : Nat) : Int) * dq := by
            push_cast
            ring
          have g2 : r + dr + (k : Int) * dr = r + ((k.succ : Nat) : Int) * dr := by
            push_cast
            ring
          rw [Flip.mk.injEq]
          refine ⟨g1, g2, by omega⟩
        · rw [if_neg hterm, if_neg hterm]
    · rw [specOppRunAux, if_neg hc]
      have hz1 : ¬((0 : Nat) = n + 1) := by omega
      rw [if_neg hz1]
      have hz : ((0 : Nat) : Int) = 0 := rfl
      simp only [hz, zero_mul, add_zero, List.range_zero, List.map_nil, List.append_nil]
      rw [othelloLineGo]
      by_cases hv : isValidHex q r = true
      · rw [if_pos hv]
        rcases hocc : occupant b (q, r) with _ | o
        · simp only []
          rw [if_neg]
          rintro ⟨_, hcon⟩
          exact Option.noConfusion hcon
        · simp only []
          by_cases h1 : o = opp
          · exact absurd ⟨hv, h1 ▸ hocc⟩ hc
          · rw [if_neg h1]
            by_cases h2 : o = cur
            · rw [if_pos h2, if_pos ⟨hv, by rw [h2]⟩]
            · rw [if_neg h2, if_neg]
              rintro ⟨_, hcon⟩
              exact h2 (Option.some.inj hcon)
      · rw [if_neg hv, if_neg]
        rintro ⟨hcon, _⟩
        exact hv hcon

theorem mem_zocAdd (acc : List Coord) (h c : Coord) :
    c ∈ zocAdd acc h ↔ c ∈ acc ∨ (isValidHex c.1 c.2 = true ∧ c = h) := by
  unfold zocAdd
  split_ifs with hv hm
  · by_cases hc : c = h <;> simp [hc, hv, hm]
  · by_cases hc : c = h <;> simp [List.mem_append, hc, hv]
  · by_cases hc : c = h <;> simp [hc]
    intro h1
    exact absurd h1 hv

theorem nodup_zocAdd {acc : List Coord} (h : Coord) (hnd : acc.Nodup) :
    (zocAdd acc h).Nodup := by
  unfold zocAdd
  split_ifs with hv hm
  · exact hnd
  · rw [List.nodup_append]
    refine ⟨hnd, List.nodup_singleton _, ?_⟩
    intro x hx hxm
    rcases List.mem_singleton.mp hxm with rfl
    exact hm hx
  · exact hnd

theorem mem_foldl_zocAdd (l : List Coord) : ∀ (acc : List Coord) (c : Coord),
    c ∈ l.foldl zocAdd acc ↔ c ∈ acc ∨ (isValidHex c.1 c.2 = true ∧ c ∈ l) := by
  induction l with
  | nil => intro acc c; simp
  | cons h l ih =>
    intro acc c
    rw [List.foldl_cons, ih, mem_zocAdd]
    constructor
    · rintro ((h1 | ⟨h1, rfl⟩) | ⟨h1, h2⟩)
      · exact Or.inl h1
      · exact Or.inr ⟨h1, List.mem_cons.mpr (Or.inl rfl)⟩
      · exact Or.inr ⟨h1, List.mem_cons.mpr (Or.inr h2)⟩
    · rintro (h1 | ⟨h1, h2⟩)
      · exact Or.inl (Or.inl h1)
      · rcases List.mem_cons.mp h2 with rfl | h2
        · exact Or.inl (Or.inr ⟨h1, rfl⟩)
        · exact Or.inr ⟨h1, h2⟩

theorem nodup_foldl_zocAdd (l : List Coord) : ∀ (acc : List Coord), acc.Nodup →
    (l.foldl zocAdd acc).Nodup := by
  induction l with
  | nil => intro acc h; exact h
  | cons x l ih =>
    intro acc h
    rw [List.foldl_cons]
    exact ih _ (nodup_zocAdd x h)

theorem mem_foldl_zocStep (l : List Coord) : ∀ (acc : List Coord) (c : Coord),
    c ∈ l.foldl (fun acc t => (getZOCHexes t.1 t.2).foldl zocAdd acc) acc ↔
      c ∈ acc ∨ (isValidHex c.1 c.2 = true ∧ ∃ t ∈ l, c ∈ getZOCHexes t.1 t.2) := by
  induction l with
  | nil => intro acc c; simp
  | cons t l ih =>
    intro acc c
    rw [List.foldl_cons, ih, mem_foldl_zocAdd]
    constructor
    · rintro ((h1 | ⟨h1, h2⟩) | ⟨h1, t', h2, h3⟩)
      · exact Or.inl h1
      · exact Or.inr ⟨h1, t, List.mem_cons.mpr (Or.inl rfl), h2⟩
      · exact Or.inr ⟨h1, t', List.mem_cons.mpr (Or.inr h2), h3⟩
    · rintro (h1 | ⟨h1, t', h2, h3⟩)
      · exact Or.inl (Or.inl h1)
      · rcases List.mem_cons.mp h2 with rfl | h2
        · exact Or.inl (Or.inr ⟨h1, h3⟩)
        · exact Or.inr ⟨h1, t', h2, h3⟩

theorem mem_calculateZOC (b : Board) (p : Player) (c : Coord) :
    c ∈ calculateZOC b p ↔
      isValidHex c.1 c.2 = true ∧ ∃ t ∈ getPlayerTiles b p, c ∈ getZOCHexes t.1 t.2 := by
  unfold calculateZOC
  rw [mem_foldl_zocStep]
  simp

theorem nodup_calculateZOC (b : Board) (p : Player) : (calculateZOC b p).Nodup := by
  unfold calculateZOC
  generalize getPlayerTiles b p = l
  induction l with
  | nil => simp
  | cons t l ih =>
    rw [List.foldl_cons]
    -- the accumulator after the first tile is nodup, and each step preserves it
    have : ∀ (m : List Coord) (acc : List Coord), acc.Nodup →
        (m.foldl (fun acc t => (getZOCHexes t.1 t.2).foldl zocAdd acc) acc).Nodup := by
      intro m
      induction m with
      | nil => intro acc h; exact h
      | cons x m ihm =>
        intro acc h
        rw [List.foldl_cons]
        exact ihm _ (nodup_foldl_zocAdd _ _ h)
    exact this _ _ (nodup_foldl_zocAdd _ _ List.nodup_nil)

theorem length_getZOCHexes (q r : Int) : (getZOCHexes q r).length = 7 := rfl

theorem nodup_getZOCHexes (q r : Int) : (getZOCHexes q r).Nodup := by
  simp [getZOCHexes, getSurroundingHexes, hexDirections, Prod.ext_iff]

theorem countTiles_sum (b : Board) : (countTiles b).1 + (countTiles b).2 = b.length := by
  induction b with
  | nil => rfl
  | cons e rest ih =>
    rcases e with ⟨c, p⟩
    cases p <;> simp [countTiles, List.filter_cons] at * <;> omega

theorem jsRound_intCast (a : ℤ) : jsRound (a : ℚ) = a := by
  unfold jsRound
  rw [Int.floor_int_add]
  norm_num

theorem hexRound_intCast (a b : ℤ) : hexRound (a : ℚ) (b : ℚ) = (a, b) := by
  unfold hexRound
  have hs : -(a : ℚ) - (b : ℚ) = ((-a - b : ℤ) : ℚ) := by push_cast; ring
  rw [hs]
  simp [jsRound_intCast]

theorem finishTurn_tiles (s : GameState) : (finishTurn s).tiles = s.tiles := by
  unfold finishTurn
  split_ifs <;> rfl

theorem finishTurn_white (s : GameState) :
    (finishTurn s).whiteTilesRemaining = s.whiteTilesRemaining := by
  unfold finishTurn
  split_ifs <;> rfl

theorem finishTurn_black (s : GameState) :
    (finishTurn s).blackTilesRemaining = s.blackTilesRemaining := by
  unfold finishTurn
  split_ifs <;> rfl

theorem finishTurn_gameOver (s : GameState) :
    (finishTurn s).gameOver = true ↔
      (s.whiteTilesRemaining = 0 ∧ s.blackTilesRemaining = 0) ∨ s.gameOver = true := by
  unfold finishTurn
  split_ifs with h <;> simp [h]

theorem mergeFlips_othello_wins {oth sur : List Flip} {f : Flip} (hf : f ∈ oth) :
    findFlip (mergeFlips oth sur) (f.q, f.r) = findFlip oth (f.q, f.r) := by
  rw [mergeFlips_find, findFlip_append]
  rcases hfo : findFlip oth (f.q, f.r) with _ | g
  · have := findFlip_isSome_of_mem hf
    rw [hfo] at this
    simp at this
  · rfl

/-- A board with a black run bracketed by white tiles: White placing at the
    origin line-captures (1,0) and (2,0). -/
def lineBoard : Board := [((1, 0), .black), ((2, 0), .black), ((3, 0), .white)]

/-- A game state about to produce a multi-distance line capture. -/
def lineState : GameState :=
  { currentPlayer := .white
    tiles := lineBoard
    whiteTilesRemaining := 20
    blackTilesRemaining := 20
    gameOver := false
    isAnimating := false }

/-- Claim C4: `isTileSurrounded(q, r, enemyZoc)` returns true exactly when every
    one of the 6 neighbor coordinates is either off-board or a member of
    `enemyZoc`; in particular a tile whose valid neighbors all lie in
    `enemyZoc` — vacuously, a tile with zero valid neighbors — is surrounded,
    and an off-board neighbor never counts as an escape. -/
theorem claim4_theorem (q r : Int) (enemyZOC : List Coord) :
    (isTileSurrounded q r enemyZOC = true ↔
      ∀ h ∈ getSurroundingHexes q r, isValidHex h.1 h.2 = false ∨ h ∈ enemyZOC) ∧
    ((∀ h ∈ getSurroundingHexes q r, isValidHex h.1 h.2 = false) →
      isTileSurrounded q r enemyZOC = true) := by
  have hiff : isTileSurrounded q r enemyZOC = true ↔
      ∀ h ∈ getSurroundingHexes q r, isValidHex h.1 h.2 = false ∨ h ∈ enemyZOC := by
    simp only [isTileSurrounded, List.all_eq_true, Bool.or_eq_true, Bool.not_eq_true',
      decide_eq_true_eq]
  exact ⟨hiff, fun hall => hiff.mpr fun h hm => Or.inl (hall h hm)⟩

/-- Witness for C4 at a concrete tile and zone. -/
theorem claim4_witness :
    (isTileSurrounded 0 0 [] = true ↔
      ∀ h ∈ getSurroundingHexes 0 0, isValidHex h.1 h.2 = false ∨ h ∈ ([] : List Coord)) ∧
    ((∀ h ∈ getSurroundingHexes 0 0, isValidHex h.1 h.2 = false) →
      isTileSurrounded 0 0 [] = true) :=
  claim4_theorem 0 0 []

/-- Claim C8: `hexRound` returns every exact integer pair unchanged, is
    idempotent, and its result together with the derived third component
    forms a triple summing to zero. -/
theorem claim8_theorem :
    (∀ a b : ℤ, hexRound (a : ℚ) (b : ℚ) = (a, b)) ∧
    (∀ q r : ℚ, hexRound ((hexRound q r).1 : ℚ) ((hexRound q r).2 : ℚ) = hexRound q r) ∧
    (∀ q r : ℚ, (hexRound q r).1 + (hexRound q r).2 +
      (-(hexRound q r).1 - (hexRound q r).2) = 0) := by
  refine ⟨hexRound_intCast, ?_, ?_⟩
  · intro q r
    rcases h : hexRound q r with ⟨x, y⟩
    exact hexRound_intCast x y
  · intro q r
    ring

/-- Claim C2: for every accepted placement the merged capture set has at most
    one entry per coordinate; the entry kept for a coordinate is the first one
    recorded, and line-capture entries always win over surround-capture
    entries for the same coordinate. -/
theorem claim2_theorem (s : GameState) (q r : Int)
    (_hs : (placeTile s q r).2 = true) :
    (((mergeFlips
        (getOthelloFlips (setTile s.tiles (q, r) s.currentPlayer) q r s.currentPlayer)
        (getSurroundedFlips (setTile s.tiles (q, r) s.currentPlayer) s.currentPlayer)).map
          flipKey).Nodup) ∧
    (∀ c : Coord,
      findFlip
          (mergeFlips
            (getOthelloFlips (setTile s.tiles (q, r) s.currentPlayer) q r s.currentPlayer)
            (getSurroundedFlips (setTile s.tiles (q, r) s.currentPlayer) s.currentPlayer)) c =
        findFlip
          (getOthelloFlips (setTile s.tiles (q, r) s.currentPlayer) q r s.currentPlayer ++
            getSurroundedFlips (setTile s.tiles (q, r) s.currentPlayer) s.currentPlayer) c) ∧
    (∀ f ∈ getOthelloFlips (setTile s.tiles (q, r) s.currentPlayer) q r s.currentPlayer,
      findFlip
          (mergeFlips
            (getOthelloFlips (setTile s.tiles (q, r) s.currentPlayer) q r s.currentPlayer)
            (getSurroundedFlips (setTile s.tiles (q, r) s.currentPlayer) s.currentPlayer))
          (f.q, f.r) =
        findFlip (getOthelloFlips (setTile s.tiles (q, r) s.currentPlayer) q r s.currentPlayer)
          (f.q, f.r)) := by
  refine ⟨nodup_mergeFlips_keys _ _, fun c => mergeFlips_find _ _ c,
    fun f hf => mergeFlips_othello_wins hf⟩

/-- Witness for C2: the concrete line-capture position. -/
theorem claim2_witness :
    (placeTile lineState 0 0).2 = true ∧
    ((((mergeFlips
        (getOthelloFlips (setTile lineState.tiles (0, 0) lineState.currentPlayer) 0 0
          lineState.currentPlayer)
        (getSurroundedFlips (setTile lineState.tiles (0, 0) lineState.currentPlayer)
          lineState.currentPlayer)).map flipKey).Nodup) ∧
    (∀ c : Coord,
      findFlip
          (mergeFlips
            (getOthelloFlips (setTile lineState.tiles (0, 0) lineState.currentPlayer) 0 0
              lineState.currentPlayer)
            (getSurroundedFlips (setTile lineState.tiles (0, 0) lineState.currentPlayer)
              lineState.currentPlayer)) c =
        findFlip
          (getOthelloFlips (setTile lineState.tiles (0, 0) lineState.currentPlayer) 0 0
            lineState.currentPlayer ++
            getSurroundedFlips (setTile lineState.tiles (0, 0) lineState.currentPlayer)
              lineState.currentPlayer) c) ∧
    (∀ f ∈ getOthelloFlips (setTile lineState.tiles (0, 0) lineState.currentPlayer) 0 0
        lineState.currentPlayer,
      findFlip
          (mergeFlips
            (getOthelloFlips (setTile lineState.tiles (0, 0) lineState.currentPlayer) 0 0
              lineState.currentPlayer)
            (getSurroundedFlips (setTile lineState.tiles (0, 0) lineState.currentPlayer)
              lineState.currentPlayer))
          (f.q, f.r) =
        findFlip
          (getOthelloFlips (setTile lineState.tiles (0, 0) lineState.currentPlayer) 0 0
            lineState.currentPlayer)
          (f.q, f.r))) :=
  ⟨by decide, claim2_theorem lineState 0 0 (by decide)⟩

/-- Claim C3: per direction, the line-capture scan captures exactly the
    consecutive run of opponent-owned cells starting adjacent to the placed
    cell, precisely when the run is terminated by a cell owned by the placing
    player; a run ending at an empty cell or the board edge captures nothing,
    and the 6 directions are evaluated independently and concatenated. -/
theorem claim3_theorem (b : Board) (cur : Player) (d : Coord) (hd : d ∈ hexDirections)
    (pq pr : Int) :
    (getOthelloFlips b pq pr cur =
      hexDirections.foldr
        (fun d' acc => othelloLineGo b cur (opponent cur) d'.1 d'.2 scanBound
          (pq + d'.1) (pr + d'.2) 1 [] ++ acc) []) ∧
    (∃ n : Nat,
      n = specOppRun b (opponent cur) d.1 d.2 (pq + d.1) (pr + d.2) ∧
      (∀ k : Nat, k < n →
        isValidHex (pq + d.1 + (k : Int) * d.1) (pr + d.2 + (k : Int) * d.2) = true ∧
        occupant b (pq + d.1 + (k : Int) * d.1, pr + d.2 + (k : Int) * d.2)
          = some (opponent cur)) ∧
      ¬(isValidHex (pq + d.1 + (n : Int) * d.1) (pr + d.2 + (n : Int) * d.2) = true ∧
        occupant b (pq + d.1 + (n : Int) * d.1, pr + d.2 + (n : Int) * d.2)
          = some (opponent cur)) ∧
      (othelloLineGo b cur (opponent cur) d.1 d.2 scanBound (pq + d.1) (pr + d.2) 1 [] =
        if isValidHex (pq + d.1 + (n : Int) * d.1) (pr + d.2 + (n : Int) * d.2) = true ∧
           occupant b (pq + d.1 + (n : Int) * d.1, pr + d.2 + (n : Int) * d.2) = some cur then
          (List.range n).map
            (fun k => ⟨pq + d.1 + (k : Int) * d.1, pr + d.2 + (k : Int) * d.2, 1 + k⟩)
        else [])) := by
  refine ⟨rfl, specOppRun b (opponent cur) d.1 d.2 (pq + d.1) (pr + d.2), rfl, ?_, ?_, ?_⟩
  · intro k hk
    exact specOppRunAux_run b (opponent cur) d.1 d.2 scanBound (pq + d.1) (pr + d.2) k hk
  · have hlt := @specOppRun_lt b (opponent cur) d hd (pq + d.1) (pr + d.2)
    exact specOppRunAux_stop b (opponent cur) d.1 d.2 scanBound (pq + d.1) (pr + d.2) hlt
  · rw [othelloLineGo_spec]
    unfold specOppRun
    have hlt := @specOppRun_lt b (opponent cur) d hd (pq + d.1) (pr + d.2)
    have hne : ¬(specOppRunAux b (opponent cur) d.1 d.2 scanBound (pq + d.1) (pr + d.2)
        = scanBound) := by
      unfold specOppRun at hlt
      omega
    rw [if_neg hne]
    by_cases hterm : isValidHex
          (pq + d.1 + ((specOppRunAux b (opponent cur) d.1 d.2 scanBound (pq + d.1)
            (pr + d.2) : Nat) : Int) * d.1)
          (pr + d.2 + ((specOppRunAux b (opponent cur) d.1 d.2 scanBound (pq + d.1)
            (pr + d.2) : Nat) : Int) * d.2) = true ∧
        occupant b
          (pq + d.1 + ((specOppRunAux b (opponent cur) d.1 d.2 scanBound (pq + d.1)
            (pr + d.2) : Nat) : Int) * d.1,
           pr + d.2 + ((specOppRunAux b (opponent cur) d.1 d.2 scanBound (pq + d.1)
            (pr + d.2) : Nat) : Int) * d.2) = some cur
    · rw [if_pos hterm, if_pos hterm, List.nil_append]
    · rw [if_neg hterm, if_neg hterm]

/-- Witness for C3: East from the origin on the concrete line board. -/
theorem claim3_witness :
    ((1, 0) : Coord) ∈ hexDirections ∧
    othelloLineGo lineBoard Player.white (opponent Player.white) 1 0 scanBound 1 0 1 [] =
      [⟨1, 0, 1⟩, ⟨2, 0, 2⟩] := by
  refine ⟨by decide, ?_⟩
  rcases (claim3_theorem lineBoard .white (1, 0) (by decide) 0 0).2 with ⟨n, hn, _, _, heq⟩
  subst hn
  exact heq.trans (by decide)

/-- Claim C1 (amended): each line-captured cell appears in the merged capture
    set with the entry recorded by the line-capture rule, whose rank equals
    its step distance (1, 2, 3, …) from the placed tile along the capturing
    direction — line captures are revealed in distance-ordered batches, not
    all together in the first batch. -/
theorem claim1_theorem (s : GameState) (q r : Int)
    (_h : (placeTile s q r).2 = true) :
    ∀ f ∈ getOthelloFlips (setTile s.tiles (q, r) s.currentPlayer) q r s.currentPlayer,
      findFlip
          (mergeFlips
            (getOthelloFlips (setTile s.tiles (q, r) s.currentPlayer) q r s.currentPlayer)
            (getSurroundedFlips (setTile s.tiles (q, r) s.currentPlayer) s.currentPlayer))
          (f.q, f.r) =
        findFlip (getOthelloFlips (setTile s.tiles (q, r) s.currentPlayer) q r s.currentPlayer)
          (f.q, f.r) ∧
      ∃ d ∈ hexDirections, ∃ k : Nat,
        f.q = q + ((k : Int) + 1) * d.1 ∧ f.r = r + ((k : Int) + 1) * d.2 ∧
          f.distance = k + 1 := by
  intro f hf
  exact ⟨mergeFlips_othello_wins hf, (mem_getOthelloFlips hf).2⟩

/-- Counterexample for C1 as stated: on `lineState`, White's placement at the
    origin is accepted, (2,0) is line-captured, and its entry in the merged
    capture set carries rank 2, not rank 1. -/
theorem claim1_counterexample :
    (placeTile lineState 0 0).2 = true ∧
    (⟨2, 0, 2⟩ : Flip) ∈ getOthelloFlips (setTile lineState.tiles (0, 0) .white) 0 0 .white ∧
    findFlip
        (mergeFlips (getOthelloFlips (setTile lineState.tiles (0, 0) .white) 0 0 .white)
          (getSurroundedFlips (setTile lineState.tiles (0, 0) .white) .white))
        (2, 0) = some ⟨2, 0, 2⟩ ∧
    ¬(∀ f ∈ getOthelloFlips (setTile lineState.tiles (0, 0) .white) 0 0 .white,
        (findFlip
          (mergeFlips (getOthelloFlips (setTile lineState.tiles (0, 0) .white) 0 0 .white)
            (getSurroundedFlips (setTile lineState.tiles (0, 0) .white) .white))
          (f.q, f.r)).map Flip.distance = some 1) := by
  refine ⟨by decide, by decide, by decide, by decide⟩

/-- Witness for the amended C1 on the concrete line board. -/
theorem claim1_witness :
    (placeTile lineState 0 0).2 = true ∧
    (∀ f ∈ getOthelloFlips (setTile lineState.tiles (0, 0) lineState.currentPlayer) 0 0
        lineState.currentPlayer,
      findFlip
          (mergeFlips
            (getOthelloFlips (setTile lineState.tiles (0, 0) lineState.currentPlayer) 0 0
              lineState.currentPlayer)
            (getSurroundedFlips (setTile lineState.tiles (0, 0) lineState.currentPlayer)
              lineState.currentPlayer))
          (f.q, f.r) =
        findFlip
          (getOthelloFlips (setTile lineState.tiles (0, 0) lineState.currentPlayer) 0 0
            lineState.currentPlayer)
          (f.q, f.r) ∧
      ∃ d ∈ hexDirections, ∃ k : Nat,
        f.q = 0 + ((k : Int) + 1) * d.1 ∧ f.r = 0 + ((k : Int) + 1) * d.2 ∧
          f.distance = k + 1) :=
  ⟨by decide, claim1_theorem lineState 0 0 (by decide)⟩

/-- Claim C5: `calculateZOC(player)` is exactly the set of valid coordinates in
    the union, over the player's tiles, of each tile's cell and 6 neighbors;
    for a player with exactly one (valid) tile the zone has at most 7 members,
    exactly 7 when no part of it falls off the board, and always contains the
    tile's own coordinate. -/
theorem claim5_theorem :
    (∀ (b : Board) (p : Player) (c : Coord),
      c ∈ calculateZOC b p ↔
        isValidHex c.1 c.2 = true ∧ ∃ t ∈ getPlayerTiles b p, c ∈ getZOCHexes t.1 t.2) ∧
    (∀ (b : Board) (p : Player) (t : Coord),
      getPlayerTiles b p = [t] → isValidHex t.1 t.2 = true →
        t ∈ calculateZOC b p ∧ (calculateZOC b p).length ≤ 7 ∧
        ((∀ h ∈ getZOCHexes t.1 t.2, isValidHex h.1 h.2 = true) →
          (calculateZOC b p).length = 7)) := by
  constructor
  · exact mem_calculateZOC
  · intro b p t hsingle hvalid
    have hmem : ∀ c : Coord, c ∈ calculateZOC b p ↔
        isValidHex c.1 c.2 = true ∧ c ∈ getZOCHexes t.1 t.2 := by
      intro c
      rw [mem_calculateZOC, hsingle]
      simp
    refine ⟨?_, ?_, ?_⟩
    · exact (hmem t).mpr ⟨hvalid, by simp [getZOCHexes]⟩
    · have hsub : calculateZOC b p ⊆ getZOCHexes t.1 t.2 := fun c hc => ((hmem c).mp hc).2
      have hle := (List.subperm_of_subset (nodup_calculateZOC b p) hsub).length_le
      rw [length_getZOCHexes] at hle
      exact hle
    · intro hall
      have hsub1 : calculateZOC b p ⊆ getZOCHexes t.1 t.2 := fun c hc => ((hmem c).mp hc).2
      have hsub2 : getZOCHexes t.1 t.2 ⊆ calculateZOC b p := fun c hc =>
        (hmem c).mpr ⟨hall c hc, hc⟩
      have hperm := List.Subperm.antisymm
        (List.subperm_of_subset (nodup_calculateZOC b p) hsub1)
        (List.subperm_of_subset (nodup_getZOCHexes t.1 t.2) hsub2)
      rw [hperm.length_eq, length_getZOCHexes]

/-- Witness for C5: a single white tile at the origin has a 7-cell zone. -/
theorem claim5_witness :
    getPlayerTiles [((0, 0), Player.white)] .white = [(0, 0)] ∧
    isValidHex 0 0 = true ∧
    ((0, 0) ∈ calculateZOC [((0, 0), Player.white)] .white ∧
      (calculateZOC [((0, 0), Player.white)] .white).length ≤ 7 ∧
      ((∀ h ∈ getZOCHexes (0 : Int) (0 : Int), isValidHex h.1 h.2 = true) →
        (calculateZOC [((0, 0), Player.white)] .white).length = 7)) :=
  ⟨by decide, by decide,
    claim5_theorem.2 [((0, 0), Player.white)] .white (0, 0) (by decide) (by decide)⟩

/-- Claim C6: a placement request fails, leaving the whole state unchanged,
    exactly when the coordinate is invalid, the cell is occupied, the placing
    player's supply is exhausted, the game is over, or a capture sequence is
    still being staged; on success it records the tile for the current player
    and decrements exactly that player's supply by one. -/
theorem claim6_theorem (s : GameState) (q r : Int) :
    ((placeTile s q r).2 = false ↔
      isValidHex q r = false ∨ hasKey s.tiles (q, r) = true ∨
      (s.currentPlayer = .white ∧ s.whiteTilesRemaining = 0) ∨
      (s.currentPlayer = .black ∧ s.blackTilesRemaining = 0) ∨
      s.gameOver = true ∨ s.isAnimating = true) ∧
    ((placeTile s q r).2 = false → (placeTile s q r).1 = s) ∧
    ((placeTile s q r).2 = true →
      occupant (placeTile s q r).1.tiles (q, r) = some s.currentPlayer ∧
      (s.currentPlayer = .white →
        (placeTile s q r).1.whiteTilesRemaining + 1 = s.whiteTilesRemaining ∧
        (placeTile s q r).1.blackTilesRemaining = s.blackTilesRemaining) ∧
      (s.currentPlayer = .black →
        (placeTile s q r).1.blackTilesRemaining + 1 = s.blackTilesRemaining ∧
        (placeTile s q r).1.whiteTilesRemaining = s.whiteTilesRemaining)) := by
  refine ⟨?_, fun h => placeTile_fst_of_fail h, ?_⟩
  · rw [placeTile_fail_iff]
    tauto
  · intro h
    rcases placeTile_success h with ⟨heq, _hgo, _han, _hv, _hk, hw, hb⟩
    rw [heq]
    simp only [placeTileResolved, finishTurn_tiles, finishTurn_white, finishTurn_black]
    refine ⟨?_, ?_, ?_⟩
    · rw [occupant_applyFlips]
      by_cases hmem : ∃ f ∈ mergeFlips
          (getOthelloFlips (setTile s.tiles (q, r) s.currentPlayer) q r s.currentPlayer)
          (getSurroundedFlips (setTile s.tiles (q, r) s.currentPlayer) s.currentPlayer),
          (f.q, f.r) = (q, r)
      · rw [if_pos hmem]
      · rw [if_neg hmem, occupant_setTile, if_pos rfl]
    · intro hcur
      have hcb : ¬(s.currentPlayer = .black) := by
        rw [hcur]
        simp
      have hwnz : s.whiteTilesRemaining ≠ 0 := fun h0 => hw ⟨hcur, h0⟩
      rw [if_pos hcur, if_neg hcb]
      omega
    · intro hcur
      have hcw : ¬(s.currentPlayer = .white) := by
        rw [hcur]
        simp
      have hbnz : s.blackTilesRemaining ≠ 0 := fun h0 => hb ⟨hcur, h0⟩
      rw [if_pos hcur, if_neg hcw]
      omega

/-- Witness for C6: the first placement on an empty board succeeds, records
    the white tile and takes one white tile from the supply; a placement on a
    finished game fails and leaves the state unchanged. -/
theorem claim6_witness :
    (occupant (placeTile initialState 0 0).1.tiles (0, 0) = some initialState.currentPlayer ∧
      (initialState.currentPlayer = .white →
        (placeTile initialState 0 0).1.whiteTilesRemaining + 1
          = initialState.whiteTilesRemaining ∧
        (placeTile initialState 0 0).1.blackTilesRemaining
          = initialState.blackTilesRemaining) ∧
      (initialState.currentPlayer = .black →
        (placeTile initialState 0 0).1.blackTilesRemaining + 1
          = initialState.blackTilesRemaining ∧
        (placeTile initialState 0 0).1.whiteTilesRemaining
          = initialState.whiteTilesRemaining)) ∧
    ((placeTile initialState 20 0).2 = false ∧ (placeTile initialState 20 0).1 = initialState) :=
  ⟨(claim6_theorem initialState 0 0).2.2 (by decide),
   ⟨by decide, (claim6_theorem initialState 20 0).2.1 (by decide)⟩⟩

/-- Claim C7: a resolved placement ends the game exactly when both supplies
    are zero afterwards; a finished game rejects every further placement
    unchanged; and the outcome is a win for the player with strictly more
    tiles on the board, otherwise a tie. -/
theorem claim7_theorem (s : GameState) (q r : Int) :
    ((placeTile s q r).2 = true →
      ((placeTile s q r).1.gameOver = true ↔
        (placeTile s q r).1.whiteTilesRemaining = 0 ∧
        (placeTile s q r).1.blackTilesRemaining = 0)) ∧
    (s.gameOver = true → placeTile s q r = (s, false)) ∧
    ((gameOutcome s = .whiteWins ↔ (countTiles s.tiles).2 < (countTiles s.tiles).1) ∧
     (gameOutcome s = .blackWins ↔ (countTiles s.tiles).1 < (countTiles s.tiles).2) ∧
     (gameOutcome s = .tie ↔ (countTiles s.tiles).1 = (countTiles s.tiles).2)) := by
  refine ⟨?_, ?_, ?_, ?_, ?_⟩
  · intro h
    rcases placeTile_success h with ⟨heq, hgo, _⟩
    rw [heq]
    simp only [placeTileResolved, finishTurn_white, finishTurn_black, finishTurn_gameOver]
    simp [hgo]
  · intro h
    have hcond : (s.gameOver || s.isAnimating) = true := by
      rw [h]
      simp
    unfold placeTile
    rw [if_pos hcond]
  · unfold gameOutcome
    split_ifs with h1 h2 <;> simp <;> omega
  · unfold gameOutcome
    split_ifs with h1 h2 <;> simp <;> omega
  · unfold gameOutcome
    split_ifs with h1 h2 <;> simp <;> omega

/-- Witness for C7: a state with both supplies at one tile each, where the
    resolving placement ends the game, and a finished state rejecting moves. -/
theorem claim7_witness :
    ((placeTile
        { currentPlayer := .white, tiles := [((0, 0), Player.black)],
          whiteTilesRemaining := 1, blackTilesRemaining := 0,
          gameOver := false, isAnimating := false } 1 0).2 = true ∧
      ((placeTile
          { currentPlayer := .white, tiles := [((0, 0), Player.black)],
            whiteTilesRemaining := 1, blackTilesRemaining := 0,
            gameOver := false, isAnimating := false } 1 0).1.gameOver = true ↔
        (placeTile
          { currentPlayer := .white, tiles := [((0, 0), Player.black)],
            whiteTilesRemaining := 1, blackTilesRemaining := 0,
            gameOver := false, isAnimating := false } 1 0).1.whiteTilesRemaining = 0 ∧
        (placeTile
          { currentPlayer := .white, tiles := [((0, 0), Player.black)],
            whiteTilesRemaining := 1, blackTilesRemaining := 0,
            gameOver := false, isAnimating := false } 1 0).1.blackTilesRemaining = 0)) ∧
    placeTile
        { currentPlayer := .white, tiles := [], whiteTilesRemaining := 20,
          blackTilesRemaining := 20, gameOver := true, isAnimating := false } 0 0 =
      ({ currentPlayer := .white, tiles := [], whiteTilesRemaining := 20,
          blackTilesRemaining := 20, gameOver := true, isAnimating := false }, false) :=
  ⟨⟨by decide,
    (claim7_theorem
      { currentPlayer := .white, tiles := [((0, 0), Player.black)],
        whiteTilesRemaining := 1, blackTilesRemaining := 0,
        gameOver := false, isAnimating := false } 1 0).1 (by decide)⟩,
   (claim7_theorem
      { currentPlayer := .white, tiles := [], whiteTilesRemaining := 20,
        blackTilesRemaining := 20, gameOver := true, isAnimating := false } 0 0).2.1 rfl⟩

/-- Claim C9: during an accepted placement's whole resolution, the only cells
    whose occupant changes are the placed cell (empty before, owned by the
    placing player after) and cells owned by the opponent when the capture set
    is computed, which flip to the placing player; every other cell keeps its
    occupant. -/
theorem claim9_theorem (s : GameState) (q r : Int) (hnd : nodupKeys s.tiles)
    (h : (placeTile s q r).2 = true) :
    ∀ c : Coord, occupant (placeTile s q r).1.tiles c ≠ occupant s.tiles c →
      (c = (q, r) ∧ occupant s.tiles c = none ∧
        occupant (placeTile s q r).1.tiles c = some s.currentPlayer) ∨
      (occupant s.tiles c = some (opponent s.currentPlayer) ∧
        occupant (placeTile s q r).1.tiles c = some s.currentPlayer) := by
  intro c hne
  rcases placeTile_success h with ⟨heq, _hgo, _han, _hv, hk, _hw, _hb⟩
  rw [heq] at hne ⊢
  simp only [placeTileResolved, finishTurn_tiles] at hne ⊢
  rw [occupant_applyFlips] at hne ⊢
  by_cases hmem : ∃ f ∈ mergeFlips
      (getOthelloFlips (setTile s.tiles (q, r) s.currentPlayer) q r s.currentPlayer)
      (getSurroundedFlips (setTile s.tiles (q, r) s.currentPlayer) s.currentPlayer),
      (f.q, f.r) = c
  · rw [if_pos hmem] at hne ⊢
    rcases hmem with ⟨f, hf, hfc⟩
    have hnd1 : nodupKeys (setTile s.tiles (q, r) s.currentPlayer) :=
      nodupKeys_setTile hnd (q, r) s.currentPlayer
    have hopp : occupant (setTile s.tiles (q, r) s.currentPlayer) c
        = some (opponent s.currentPlayer) := by
      rcases mem_mergeFlips hf with hoth | hsur
      · have hx := (mem_getOthelloFlips hoth).1
        rw [hfc] at hx
        exact hx
      · rcases mem_getSurroundedFlips hsur with hmem2 | hocc2
        · exact occupant_of_mem hnd1 (hfc ▸ hmem2)
        · exact hfc ▸ hocc2
    have hcq : c ≠ (q, r) := by
      intro hcq
      rw [hcq, occupant_setTile, if_pos rfl] at hopp
      exact opponent_ne s.currentPlayer (Option.some.inj hopp).symm
    rw [occupant_setTile, if_neg hcq] at hopp
    exact Or.inr ⟨hopp, rfl⟩
  · rw [if_neg hmem] at hne ⊢
    rw [occupant_setTile] at hne ⊢
    by_cases hcq : c = (q, r)
    · rw [if_pos hcq] at hne ⊢
      refine Or.inl ⟨hcq, ?_, rfl⟩
      rw [hcq]
      have hks := hasKey_eq_isSome s.tiles (q, r)
      rw [hk] at hks
      cases hoc : occupant s.tiles (q, r)
      · rfl
      · rw [hoc] at hks
        simp at hks
    · rw [if_neg hcq] at hne
      exact absurd rfl hne

/-- Witness for C9 at the concrete line-capture position. -/
theorem claim9_witness :
    nodupKeys lineState.tiles ∧
    (placeTile lineState 0 0).2 = true ∧
    ∀ c : Coord, occupant (placeTile lineState 0 0).1.tiles c ≠ occupant lineState.tiles c →
      (c = (0, 0) ∧ occupant lineState.tiles c = none ∧
        occupant (placeTile lineState 0 0).1.tiles c = some lineState.currentPlayer) ∨
      (occupant lineState.tiles c = some (opponent lineState.currentPlayer) ∧
        occupant (placeTile lineState 0 0).1.tiles c = some lineState.currentPlayer) :=
  ⟨by unfold nodupKeys; decide, by decide,
    claim9_theorem lineState 0 0 (by unfold nodupKeys; decide) (by decide)⟩

/-- The supply-count invariant of C10: supplies never exceed the pool, and the
    number of tiles on the board equals the tiles drawn from both supplies. -/
def supplyInvariant (s : GameState) : Prop :=
  s.whiteTilesRemaining ≤ tilesPerPlayer ∧ s.blackTilesRemaining ≤ tilesPerPlayer ∧
  (countTiles s.tiles).1 + (countTiles s.tiles).2 =
    (tilesPerPlayer - s.whiteTilesRemaining) + (tilesPerPlayer - s.blackTilesRemaining)

/-- Claim C10: after initialization and after every fully resolved placement,
    the total number of tiles on the board equals
    (20 − white supply) + (20 − black supply): each accepted placement adds
    exactly one tile and consumes one unit of supply, and captures only change
    ownership, never the tile count. -/
theorem claim10_theorem :
    supplyInvariant initialState ∧
    ∀ (s : GameState) (q r : Int), supplyInvariant s → (placeTile s q r).2 = true →
      supplyInvariant (placeTile s q r).1 := by
  constructor
  · unfold supplyInvariant
    refine ⟨by decide, by decide, by decide⟩
  · intro s q r hinv h
    rcases placeTile_success h with ⟨heq, _hgo, _han, _hv, hk, hw, hb⟩
    rw [heq]
    unfold supplyInvariant at *
    simp only [placeTileResolved, finishTurn_tiles, finishTurn_white, finishTurn_black]
    have hkeys : ∀ f ∈ mergeFlips
        (getOthelloFlips (setTile s.tiles (q, r) s.currentPlayer) q r s.currentPlayer)
        (getSurroundedFlips (setTile s.tiles (q, r) s.currentPlayer) s.currentPlayer),
        hasKey (setTile s.tiles (q, r) s.currentPlayer) (f.q, f.r) = true := by
      intro f hf
      rcases mem_mergeFlips hf with hoth | hsur
      · have hx := (mem_getOthelloFlips hoth).1
        rw [hasKey_eq_isSome, hx]
        rfl
      · rcases mem_getSurroundedFlips hsur with hmem2 | hocc2
        · exact hasKey_of_mem hmem2
        · rw [hasKey_eq_isSome, hocc2]
          rfl
    have hlen2 := length_applyFlips _ _ s.currentPlayer hkeys
    have hlen1 : (setTile s.tiles (q, r) s.currentPlayer).length = s.tiles.length + 1 := by
      rw [length_setTile, hk]
      simp
    have hsum := hinv.2.2
    rw [countTiles_sum] at hsum
    refine ⟨?_, ?_, ?_⟩
    · split_ifs
      · omega
      · exact hinv.1
    · split_ifs
      · omega
      · exact hinv.2.1
    · rw [countTiles_sum, hlen2, hlen1]
      by_cases hcw : s.currentPlayer = .white
      · have hwnz : s.whiteTilesRemaining ≠ 0 := fun h0 => hw ⟨hcw, h0⟩
        have hcb : ¬(s.currentPlayer = .black) := by
          rw [hcw]
          simp
        rw [if_pos hcw, if_neg hcb]
        have h1 := hinv.1
        have h2 := hinv.2.1
        omega
      · have hcb : s.currentPlayer = .black := by
          cases hp : s.currentPlayer
          · exact absurd hp hcw
          · rfl
        have hbnz : s.blackTilesRemaining ≠ 0 := fun h0 => hb ⟨hcb, h0⟩
        rw [if_pos hcb, if_neg hcw]
        have h1 := hinv.1
        have h2 := hinv.2.1
        omega

/-- Witness for C10: the invariant holds initially and is preserved by the
    first placement. -/
theorem claim10_witness :
    supplyInvariant initialState ∧
    (supplyInvariant initialState ∧ (placeTile initialState 0 0).2 = true ∧
      supplyInvariant (placeTile initialState 0 0).1) :=
  ⟨claim10_theorem.1,
   claim10_theorem.1, by decide,
   claim10_theorem.2 initialState 0 0 claim10_theorem.1 (by decide)⟩
